import Mathlib

/-!
Shallow embedding of the TradeBot repository's core (news acquisition engine
and sentiment classification) and proofs about the claims of its spec.

Dates are modelled as integer day numbers, so `|d1 - d2|` in whole days is
`(d1 - d2).natAbs`.  Fallible Python values (`None`) are modelled with
`Option`.  The external fetch of `get_article_data` (newspaper3k) is a
parameter of type `FetchFn`.
-/

namespace Crawler

/-- A candidate dict `{"url": href, "candidate_date": candidate_date}` as built
by `get_candidate_articles` (crawler.py lines 93-99) and consumed by
`choose_best_article`.  `candidate_date` is the day number parsed from the
`<time>` tag, or `none`. -/
structure Candidate where
  url : String
  candidate_date : Option Int
deriving DecidableEq

/-- The result of `get_article_data url` (crawler.py lines 105-117):
`(article.title, article.text, article.publish_date)`, each possibly absent
(on an exception the function returns `(None, None, None)`).  The publish
date is already converted to a day number. -/
abbrev FetchFn := String → Option String × Option String × Option Int

/-- Python truthiness of an optional string: `None` and the empty string are
falsy (`if not title or not content: continue`, crawler.py line 134). -/
def truthy : Option String → Bool
  | none => false
  | some s => !(s == "")

/-- A candidate is kept only when both title and content are truthy
(crawler.py lines 133-135). -/
def usable (fetch : FetchFn) (c : Candidate) : Bool :=
  truthy (fetch c.url).1 && truthy (fetch c.url).2.1

/-- The effective date of a candidate (crawler.py lines 137-142): the listing
date if present, otherwise the newspaper3k publish date. -/
def effDate (fetch : FetchFn) (c : Candidate) : Option Int :=
  match c.candidate_date with
  | some d => some d
  | none => (fetch c.url).2.2

/-- The value `diff = abs((candidate_date - target_date).days)` when an effective
date exists, else infinite — modelled as `none` (crawler.py lines 144-147). -/
def dist (fetch : FetchFn) (target : Int) (c : Candidate) : Option Nat :=
  (effDate fetch c).map fun d => (d - target).natAbs

/-- Python `<` on distances where `none` plays `float("inf")`:
`inf < x` is false, `a < inf` is true for finite `a`. -/
def ltInf : Option Nat → Option Nat → Bool
  | none, _ => false
  | some _, none => true
  | some a, some b => a < b

/-- The tuple `(title, content, url, candidate_date)` returned by
`choose_best_article` for a selected candidate (crawler.py lines 151, 154). -/
structure Chosen where
  title : String
  content : String
  url : String
  candidate_date : Option Int
deriving DecidableEq

/-- The data returned for candidate `c`: its fetched title and content and its
effective date (the local variable `candidate_date` after the fallback). -/
def mkChosen (fetch : FetchFn) (c : Candidate) : Chosen :=
  ⟨(fetch c.url).1.getD "", (fetch c.url).2.1.getD "", c.url, effDate fetch c⟩

/-- The scanning loop of `choose_best_article` (crawler.py lines 128-158),
carrying the accumulators `best_diff` (`none` = the initial `float("inf")`)
and `best_data` (`none` = the initial Python `None`).  A candidate that is not
usable is skipped; a candidate at distance 0 is returned immediately; a
candidate strictly closer than `best_diff` replaces the accumulator;
at the end `best_data` is returned (`None` becomes the absent 4-tuple). -/
def chooseAux (fetch : FetchFn) (target : Int) :
    List Candidate → Option Nat → Option Chosen → Option Chosen
  | [], _, best => best
  | c :: rest, bestDiff, best =>
    if usable fetch c then
      if dist fetch target c = some 0 then some (mkChosen fetch c)
      else if ltInf (dist fetch target c) bestDiff then
        chooseAux fetch target rest (dist fetch target c) (some (mkChosen fetch c))
      else chooseAux fetch target rest bestDiff best
    else chooseAux fetch target rest bestDiff best

/-- The function `choose_best_article(candidates, target_date)` (crawler.py lines
121-159).
Returns `none` for the Python `(None, None, None, None)`. -/
def choose_best_article (fetch : FetchFn) (candidates : List Candidate)
    (target_date : Int) : Option Chosen :=
  chooseAux fetch target_date candidates none none

/-- A usable candidate whose effective date is exactly the target day. -/
def isExact (fetch : FetchFn) (target : Int) (c : Candidate) : Bool :=
  usable fetch c && (dist fetch target c == some 0)

/-- The raw data extracted from one `<article>` element of the search page
(crawler.py lines 84-92): the first anchor's `href` if any, and the day number
parsed by `parse_date_from_string` from the `<time>` tag's text, if any. -/
structure RawArticle where
  href : Option String
  date : Option Int
deriving DecidableEq

/-- Relative hrefs `./...` are rebased onto news.google.com
(crawler.py lines 96-97). -/
def rewriteHref (href : String) : String :=
  if href.startsWith "./" then "https://news.google.com" ++ href.drop 1 else href

/-- The accumulation loop of `get_candidate_articles` (crawler.py lines
84-102): for each article with an anchor, build the candidate dict and append
it unless the identical dict is already present; stop once `count` candidates
have been collected. -/
def gcaLoop (count : Nat) : List RawArticle → List Candidate → List Candidate
  | [], acc => acc
  | a :: rest, acc =>
    let acc' := match a.href with
      | none => acc
      | some h =>
        let c : Candidate := ⟨rewriteHref h, a.date⟩
        if c ∈ acc then acc else acc ++ [c]
    if count ≤ acc'.length then acc' else gcaLoop count rest acc'

/-- The function `get_candidate_articles` restricted to its pure accumulation (the Selenium
page load only produces the `RawArticle` list). The Python default for
`count` is 6. -/
def get_candidate_articles (articles : List RawArticle) (count : Nat) : List Candidate :=
  gcaLoop count articles []

/-- The candidate dict each anchored article would produce, in page order. -/
def anchored (articles : List RawArticle) : List Candidate :=
  articles.filterMap fun a => a.href.map fun h => ⟨rewriteHref h, a.date⟩

/-- Concrete fetch where every URL yields usable content but no date. -/
def fetchNoDate : FetchFn := fun _ => (some "T", some "Body", none)

/-- Concrete fetch: URL "a" publishes 5 days after day 0, every other URL on
day 0. -/
def fetchTwoDates : FetchFn := fun u =>
  if u == "a" then (some "TA", some "CA", some 5) else (some "TB", some "CB", some 0)

/-- Concrete fetch with three URLs at distances 5, 2 and 2 from day 0. -/
def fetchThreeDates : FetchFn := fun u =>
  if u == "a" then (some "TA", some "CA", some 5)
  else if u == "b" then (some "TB", some "CB", some 2)
  else (some "TC", some "CC", some (-2))

end Crawler

namespace GDELT

/-- An article row returned by the GDELT search, abstracted to its payload
(the claims only depend on identity of results, not their fields). -/
structure Article where
  payload : String
deriving DecidableEq

/-- The outcome the scheduler observes for one completed day future
(GDELT.py lines 122-134): `found a` when `process_day` returned an article,
`nothing` when it returned `None`, `failed` when `future.result()` raised and
the `except` branch only printed. -/
inductive DayOutcome
  | found (a : Article)
  | nothing
  | failed
deriving DecidableEq

/-- One call of `save_articles(articles, filename)` (GDELT.py lines 42-46):
it serializes the entire list `articles` into the file `filename`. -/
structure FileWrite where
  filename : String
  contents : List Article
deriving DecidableEq

/-- The filename used for per-success progress saves (GDELT.py line 129). -/
def progressPath : String := "daily_english_articles_partial.json"

/-- The default filename of `save_articles`, used by the final save in the
`finally` block (GDELT.py lines 42, 139). -/
def defaultPath : String := "daily_english_articles save.json"

/-- The function `save_articles` as the single file write it performs. -/
def save_articles (articles : List Article) (filename : String) : FileWrite :=
  ⟨filename, articles⟩

/-- The file-operation trace of `save_articles` (GDELT.py lines 42-46):
`open(filename, "w")` truncates the target in place, `json.dump` writes into
it, and the `with` block closes it.  No temporary file and no rename are
involved. -/
inductive FileOp
  | openTrunc (path : String)
  | writeChunk (path : String)
  | close (path : String)
  | rename (src dst : String)
deriving DecidableEq

/-- The operations `save_articles filename` performs, in order. -/
def save_articles_ops (filename : String) : List FileOp :=
  [.openTrunc filename, .writeChunk filename, .close filename]

/-- The dates list built by `main` (GDELT.py lines 106-113): starting at
`start`, append the current day and step one day while `current <= end`.
Days are integer day numbers. -/
def datesList (start endD : Int) : List Int :=
  if start ≤ endD then start :: datesList (start + 1) endD else []
termination_by (endD + 1 - start).toNat
decreasing_by omega

/-- The days submitted to the pool: the dict comprehension
`{executor.submit(process_day, day): day for day in dates}` (GDELT.py lines
117-119) calls `executor.submit` exactly once per element of `dates`, in list
order, so the submitted days are exactly `datesList`. -/
def submitted (start endD : Int) : List Int := datesList start endD

/-- The `as_completed` loop of `main` (GDELT.py lines 120-134) over the
completion events it processes, threading the `daily_articles` accumulator:
a `found` outcome appends the article and immediately calls
`save_articles(daily_articles, "daily_english_articles_partial.json")`;
`nothing` and `failed` leave the state untouched.  Returns the final
accumulator and the list of file writes performed, in order. -/
def schedLoop : List DayOutcome → List Article → List Article × List FileWrite
  | [], acc => (acc, [])
  | o :: rest, acc =>
    match o with
    | .found a =>
      let acc' := acc ++ [a]
      let step := schedLoop rest acc'
      (step.1, save_articles acc' progressPath :: step.2)
    | .nothing => schedLoop rest acc
    | .failed => schedLoop rest acc

/-- How the run ended: the `as_completed` loop ran to exhaustion
(`completed`), was cut short by `KeyboardInterrupt` (`interrupted`), or by
another exception (`errored`).  `events` are the completion events processed
before that point. -/
inductive RunEnd
  | completed
  | interrupted
  | errored
deriving DecidableEq

/-- The overall effect of `main` (GDELT.py lines 115-142): process the completion
events, then — on every path, because the `except KeyboardInterrupt` and
`except Exception` branches only print and the `finally` block always runs —
perform one final `save_articles(daily_articles)` to the default filename.
`main` returns `None` and the script ends normally, so the process exit
status is 0 regardless of how the run ended. -/
def runMain (events : List DayOutcome) (_e : RunEnd) : List FileWrite × Int :=
  let step := schedLoop events []
  ((step.2 ++ [save_articles step.1 defaultPath], 0))

/-- The articles of the `found` events, in order: the contents of
`daily_articles` after processing `events`. -/
def foundList (events : List DayOutcome) : List Article :=
  events.filterMap fun o => match o with
    | .found a => some a
    | _ => none

/-- Stated from the spec's words ("write to a temporary location then
move/replace, or equivalent atomic replace semantics"): an operation trace
replaces `target` atomically when it never opens or writes `target` in place
and installs it only through a rename from a distinct temporary path.  This
is the spec-side definition that `save_articles_ops` is compared against. -/
def atomicReplaceSpec (target : String) (ops : List FileOp) : Prop :=
  (∀ op ∈ ops, op ≠ FileOp.openTrunc target ∧ op ≠ FileOp.writeChunk target) ∧
  ∃ tmp, tmp ≠ target ∧ FileOp.rename tmp target ∈ ops

end GDELT

namespace TextAnalyzer

/-- The sentiment thresholds of `analyze_sentiment` (textAnalyzer.py lines
55-60) applied to the compound score, modelled as a rational.  Python's
`-0.00` equals `0.0`, so the middle branch tests `compound ≤ 0`. -/
def classify (compound : ℚ) : String :=
  if 1/100 ≤ compound then "Positive"
  else if compound ≤ -0 then "Negative"
  else "Neutral"

/-- The identical thresholds applied to the per-date average compound score
in `aggregate_sentiments` (combine.py lines 38-44). -/
def classify_avg (avg_compound : ℚ) : String :=
  if 1/100 ≤ avg_compound then "Positive"
  else if avg_compound ≤ -0 then "Negative"
  else "Neutral"

/-- The per-date step of `aggregate_sentiments`: `statistics.mean` of the compound
scores collected for the date, then the threshold classification. -/
def aggregate_sentiment (compounds : List ℚ) : String :=
  classify_avg (compounds.sum / compounds.length)

end TextAnalyzer

namespace Crawler

lemma chooseAux_all_inf (fetch : FetchFn) (target : Int)
    (l : List Candidate) (bd : Option Nat) (b : Option Chosen)
    (h : ∀ c ∈ l, usable fetch c = true → dist fetch target c = none) :
    chooseAux fetch target l bd b = b := by
  induction l generalizing bd b with
  | nil => rfl
  | cons c rest ih =>
    have hrest : ∀ c' ∈ rest, usable fetch c' = true → dist fetch target c' = none :=
      fun c' hc' => h c' (List.mem_cons_of_mem _ hc')
    by_cases hu : usable fetch c = true
    · have hd := h c (List.mem_cons_self c rest) hu
      simp only [chooseAux, if_pos hu, hd]
      rw [if_neg (by simp), if_neg (by simp [ltInf])]
      exact ih bd b hrest
    · simp only [chooseAux, if_neg hu]
      exact ih bd b hrest

/-- C1 (amended): when every usable candidate has an infinite distance (no
determinable effective date), `choose_best_article` returns the absent result
`(None, None, None, None)`; the spec's first-usable-candidate fallback does
not exist in the code, because `inf < inf` is false so `best_data` is never
set. -/
theorem choose_best_article_all_inf_absent (fetch : FetchFn)
    (cands : List Candidate) (target : Int)
    (h : ∀ c ∈ cands, usable fetch c = true → dist fetch target c = none) :
    choose_best_article fetch cands target = none :=
  chooseAux_all_inf fetch target cands none none h

/-- Witness for `choose_best_article_all_inf_absent` at a concrete input. -/
theorem choose_best_article_all_inf_absent_witness :
    (∀ c ∈ [(⟨"u", none⟩ : Candidate)],
        usable fetchNoDate c = true → dist fetchNoDate 0 c = none) ∧
    choose_best_article fetchNoDate [⟨"u", none⟩] 0 = none :=
  ⟨by decide, choose_best_article_all_inf_absent fetchNoDate [⟨"u", none⟩] 0 (by decide)⟩

/-- C1 counterexample: a single candidate that is usable (truthy title and
content) but carries no date anywhere; the claim says the first usable
candidate is returned, but `choose_best_article` returns the absent result. -/
theorem choose_best_article_no_fallback_cex :
    usable fetchNoDate ⟨"w", none⟩ = true ∧
    dist fetchNoDate 0 ⟨"w", none⟩ = none ∧
    choose_best_article fetchNoDate [⟨"w", none⟩] 0 = none :=
  ⟨rfl, rfl, rfl⟩

lemma chooseAux_exact_return (fetch : FetchFn) (target : Int)
    (c : Candidate) (hu : usable fetch c = true)
    (hd : dist fetch target c = some 0) :
    ∀ (pre : List Candidate), (∀ p ∈ pre, isExact fetch target p = false) →
    ∀ (post : List Candidate) (bd : Option Nat) (b : Option Chosen),
      chooseAux fetch target (pre ++ c :: post) bd b = some (mkChosen fetch c) := by
  intro pre
  induction pre with
  | nil =>
    intro _ post bd b
    simp only [List.nil_append, chooseAux, if_pos hu, hd, if_true]
  | cons p pre ih =>
    intro hpre post bd b
    have hp : isExact fetch target p = false := hpre p (List.mem_cons_self _ _)
    have hpre' : ∀ q ∈ pre, isExact fetch target q = false :=
      fun q hq => hpre q (List.mem_cons_of_mem _ hq)
    by_cases hup : usable fetch p = true
    · have hdp : ¬ dist fetch target p = some 0 := by
        unfold isExact at hp
        rw [hup, Bool.true_and] at hp
        simpa using hp
      simp only [List.cons_append, chooseAux, if_pos hup, if_neg hdp]
      by_cases hlt : ltInf (dist fetch target p) bd = true
      · rw [if_pos hlt]; exact ih hpre' post _ _
      · rw [if_neg hlt]; exact ih hpre' post bd b
    · simp only [List.cons_append, chooseAux, if_neg hup]
      exact ih hpre' post bd b

/-- C2: if candidate `c` is usable and its effective date is exactly the
target day (distance 0), then no matter what follows it, `choose_best_article`
on `pre ++ c :: post` returns `c`'s data provided no earlier candidate is an
exact match — the first exact match wins regardless of position and the
candidates after it are never consulted — and the returned effective date
equals the target day. -/
theorem choose_best_article_exact_first (fetch : FetchFn) (target : Int)
    (pre post : List Candidate) (c : Candidate)
    (hu : usable fetch c = true)
    (heff : effDate fetch c = some target)
    (hpre : ∀ p ∈ pre, isExact fetch target p = false) :
    choose_best_article fetch (pre ++ c :: post) target = some (mkChosen fetch c) ∧
    (mkChosen fetch c).candidate_date = some target := by
  have hd : dist fetch target c = some 0 := by simp [dist, heff]
  exact ⟨chooseAux_exact_return fetch target c hu hd pre hpre post none none,
    by simp [mkChosen, heff]⟩

/-- Witness for `choose_best_article_exact_first` at a concrete input: the
exact-day candidate "b" sits between a 5-days-off candidate and another
candidate, and is selected. -/
theorem choose_best_article_exact_first_witness :
    (usable fetchTwoDates ⟨"b", none⟩ = true ∧
     effDate fetchTwoDates ⟨"b", none⟩ = some 0 ∧
     (∀ p ∈ [(⟨"a", none⟩ : Candidate)], isExact fetchTwoDates 0 p = false)) ∧
    (choose_best_article fetchTwoDates
        ([⟨"a", none⟩] ++ ⟨"b", none⟩ :: [⟨"a", some 3⟩]) 0
        = some (mkChosen fetchTwoDates ⟨"b", none⟩) ∧
     (mkChosen fetchTwoDates ⟨"b", none⟩).candidate_date = some 0) :=
  ⟨⟨rfl, rfl, by decide⟩,
   choose_best_article_exact_first fetchTwoDates 0 [⟨"a", none⟩] [⟨"a", some 3⟩]
     ⟨"b", none⟩ rfl rfl (by decide)⟩

lemma chooseAux_no_improve (fetch : FetchFn) (target : Int) (m : Nat) (ch : Chosen)
    (l : List Candidate)
    (hne : ∀ c ∈ l, isExact fetch target c = false)
    (hge : ∀ c ∈ l, usable fetch c = true → ∀ k, dist fetch target c = some k → m ≤ k) :
    chooseAux fetch target l (some m) (some ch) = some ch := by
  induction l with
  | nil => rfl
  | cons c rest ih =>
    have hne' : ∀ q ∈ rest, isExact fetch target q = false :=
      fun q hq => hne q (List.mem_cons_of_mem _ hq)
    have hge' : ∀ q ∈ rest, usable fetch q = true →
        ∀ k, dist fetch target q = some k → m ≤ k :=
      fun q hq => hge q (List.mem_cons_of_mem _ hq)
    by_cases huc : usable fetch c = true
    · cases hdc : dist fetch target c with
      | none =>
        simp only [chooseAux, if_pos huc, hdc]
        rw [if_neg (by simp), if_neg (by simp [ltInf])]
        exact ih hne' hge'
      | some k =>
        have hk : m ≤ k := hge c (List.mem_cons_self _ _) huc k hdc
        have hk0 : k ≠ 0 := by
          intro h0
          have hx := hne c (List.mem_cons_self _ _)
          unfold isExact at hx
          rw [huc, hdc, h0] at hx
          simp at hx
        simp only [chooseAux, if_pos huc, hdc]
        rw [if_neg (by simp [hk0]), if_neg (by simp only [ltInf]; simpa using not_lt.mpr hk)]
        exact ih hne' hge'
    · simp only [chooseAux, if_neg huc]
      exact ih hne' hge'

lemma chooseAux_min_select (fetch : FetchFn) (target : Int) (m : Nat)
    (cb : Candidate) (hu : usable fetch cb = true)
    (hd : dist fetch target cb = some m) (hm : m ≠ 0)
    (post : List Candidate)
    (hpostne : ∀ c ∈ post, isExact fetch target c = false)
    (hpost : ∀ c ∈ post, usable fetch c = true →
      ∀ k, dist fetch target c = some k → m ≤ k) :
    ∀ (pre : List Candidate),
      (∀ c ∈ pre, usable fetch c = true → ∀ k, dist fetch target c = some k → m < k) →
      ∀ (bd : Option Nat) (b : Option Chosen), (∀ k, bd = some k → m < k) →
        chooseAux fetch target (pre ++ cb :: post) bd b = some (mkChosen fetch cb) := by
  intro pre
  induction pre with
  | nil =>
    intro _ bd b hbd
    have hlt : ltInf (some m) bd = true := by
      cases bd with
      | none => rfl
      | some k => simp only [ltInf, decide_eq_true_eq]; exact hbd k rfl
    simp only [List.nil_append, chooseAux, if_pos hu, hd]
    rw [if_neg (by simp [hm]), if_pos hlt]
    exact chooseAux_no_improve fetch target m (mkChosen fetch cb) post hpostne hpost
  | cons p pre ih =>
    intro hgt bd b hbd
    have hgt' : ∀ q ∈ pre, usable fetch q = true →
        ∀ k, dist fetch target q = some k → m < k :=
      fun q hq => hgt q (List.mem_cons_of_mem _ hq)
    by_cases hup : usable fetch p = true
    · cases hdp : dist fetch target p with
      | none =>
        simp only [List.cons_append, chooseAux, if_pos hup, hdp]
        rw [if_neg (by simp), if_neg (by simp [ltInf])]
        exact ih hgt' bd b hbd
      | some k =>
        have hmk : m < k := hgt p (List.mem_cons_self _ _) hup k hdp
        have hk0 : k ≠ 0 := by omega
        simp only [List.cons_append, chooseAux, if_pos hup, hdp]
        rw [if_neg (by simp [hk0])]
        by_cases hlt : ltInf (some k) bd = true
        · rw [if_pos hlt]
          exact ih hgt' (some k) _ (by intro k' hk'; cases hk'; exact hmk)
        · rw [if_neg hlt]
          exact ih hgt' bd b hbd
    · simp only [List.cons_append, chooseAux, if_neg hup]
      exact ih hgt' bd b hbd

/-- C3: when no candidate in the list is an exact-day match, and `cb` is a
usable candidate at finite distance `m` such that every usable candidate
before it is strictly farther and every usable candidate after it is at least
as far, `choose_best_article` returns `cb`'s data: the minimum distance over
usable candidates wins, and ties resolve to the first-encountered
candidate. -/
theorem choose_best_article_min_dist (fetch : FetchFn) (target : Int)
    (pre post : List Candidate) (cb : Candidate) (m : Nat)
    (hu : usable fetch cb = true)
    (hd : dist fetch target cb = some m)
    (hnoex : ∀ c ∈ pre ++ cb :: post, isExact fetch target c = false)
    (hpre : ∀ c ∈ pre, usable fetch c = true →
      ∀ k, dist fetch target c = some k → m < k)
    (hpost : ∀ c ∈ post, usable fetch c = true →
      ∀ k, dist fetch target c = some k → m ≤ k) :
    choose_best_article fetch (pre ++ cb :: post) target = some (mkChosen fetch cb) := by
  have hm : m ≠ 0 := by
    have hx := hnoex cb (by simp)
    unfold isExact at hx
    rw [hu, hd] at hx
    intro h0
    rw [h0] at hx
    simp at hx
  have hpostne : ∀ c ∈ post, isExact fetch target c = false :=
    fun c hc => hnoex c (by simp [hc])
  exact chooseAux_min_select fetch target m cb hu hd hm post hpostne hpost pre hpre
    none none (fun k hk => by cases hk)

/-- Witness for `choose_best_article_min_dist` at a concrete input: distances
are 5, 2, 2 from the target day 0, so the first candidate at the minimum
distance 2 (URL "b") wins the tie. -/
theorem choose_best_article_min_dist_witness :
    (usable fetchThreeDates ⟨"b", none⟩ = true ∧
     dist fetchThreeDates 0 ⟨"b", none⟩ = some 2 ∧
     (∀ c ∈ [(⟨"a", none⟩ : Candidate)] ++ ⟨"b", none⟩ :: [⟨"c", none⟩],
        isExact fetchThreeDates 0 c = false) ∧
     (∀ c ∈ [(⟨"a", none⟩ : Candidate)], usable fetchThreeDates c = true →
        ∀ k, dist fetchThreeDates 0 c = some k → 2 < k) ∧
     (∀ c ∈ [(⟨"c", none⟩ : Candidate)], usable fetchThreeDates c = true →
        ∀ k, dist fetchThreeDates 0 c = some k → 2 ≤ k)) ∧
    choose_best_article fetchThreeDates ([⟨"a", none⟩] ++ ⟨"b", none⟩ :: [⟨"c", none⟩]) 0
      = some (mkChosen fetchThreeDates ⟨"b", none⟩) :=
  ⟨⟨rfl, rfl, by decide, by decide, by decide⟩,
   choose_best_article_min_dist fetchThreeDates 0 [⟨"a", none⟩] [⟨"c", none⟩]
     ⟨"b", none⟩ 2 rfl rfl (by decide) (by decide) (by decide)⟩

end Crawler

namespace GDELT

lemma datesList_mem (e : Int) :
    ∀ (n : Nat) (s : Int), (e + 1 - s).toNat = n →
      ∀ d : Int, (d ∈ datesList s e ↔ s ≤ d ∧ d ≤ e) := by
  intro n
  induction n with
  | zero =>
    intro s hs d
    rw [datesList.eq_def, if_neg (by omega)]
    simp only [List.not_mem_nil, false_iff]
    omega
  | succ n ih =>
    intro s hs d
    have h1 : s ≤ e := by omega
    rw [datesList.eq_def, if_pos h1, List.mem_cons, ih (s + 1) (by omega) d]
    omega

lemma datesList_length (e : Int) :
    ∀ (n : Nat) (s : Int), (e + 1 - s).toNat = n →
      (datesList s e).length = (e - s + 1).toNat := by
  intro n
  induction n with
  | zero =>
    intro s hs
    rw [datesList.eq_def, if_neg (by omega)]
    simp only [List.length_nil]
    omega
  | succ n ih =>
    intro s hs
    have h1 : s ≤ e := by omega
    rw [datesList.eq_def, if_pos h1, List.length_cons, ih (s + 1) (by omega)]
    omega

lemma datesList_nodup (e : Int) :
    ∀ (n : Nat) (s : Int), (e + 1 - s).toNat = n → (datesList s e).Nodup := by
  intro n
  induction n with
  | zero =>
    intro s hs
    rw [datesList.eq_def, if_neg (by omega)]
    exact List.nodup_nil
  | succ n ih =>
    intro s hs
    have h1 : s ≤ e := by omega
    rw [datesList.eq_def, if_pos h1]
    refine List.nodup_cons.mpr ⟨?_, ih (s + 1) (by omega)⟩
    rw [datesList_mem e ((e + 1 - (s + 1)).toNat) (s + 1) rfl s]
    omega

/-- C4: the scheduler submits exactly one Day Task per calendar day of the
range: the list of days handed to `executor.submit` has as many entries as
the range has days, contains no day twice, and contains exactly the days
between start and end inclusive. -/
theorem submitted_once_per_day (s e : Int) :
    (submitted s e).length = (e - s + 1).toNat ∧
    (submitted s e).Nodup ∧
    ∀ d : Int, d ∈ submitted s e ↔ s ≤ d ∧ d ≤ e :=
  ⟨datesList_length e _ s rfl, datesList_nodup e _ s rfl,
   fun d => datesList_mem e _ s rfl d⟩

lemma schedLoop_writes_chain (events : List DayOutcome) :
    ∀ acc : List Article,
      (∀ w ∈ (schedLoop events acc).2, acc <+: w.contents) ∧
      (∀ w ∈ (schedLoop events acc).2, w.contents <+: (schedLoop events acc).1) ∧
      acc <+: (schedLoop events acc).1 ∧
      List.Chain' (fun w w' => w.contents <+: w'.contents) (schedLoop events acc).2 := by
  induction events with
  | nil =>
    intro acc
    exact ⟨by simp [schedLoop], by simp [schedLoop], by simp [schedLoop], by simp [schedLoop]⟩
  | cons o rest ih =>
    intro acc
    cases o with
    | nothing => exact ih acc
    | failed => exact ih acc
    | found a =>
      obtain ⟨ih1, ih2, ih3, ih4⟩ := ih (acc ++ [a])
      have hstep : schedLoop (DayOutcome.found a :: rest) acc
          = ((schedLoop rest (acc ++ [a])).1,
             save_articles (acc ++ [a]) progressPath :: (schedLoop rest (acc ++ [a])).2) := rfl
      rw [hstep]
      refine ⟨?_, ?_, ?_, ?_⟩
      · intro w hw
        rcases List.mem_cons.1 hw with h | h
        · rw [h]; exact List.prefix_append acc [a]
        · exact (List.prefix_append acc [a]).trans (ih1 w h)
      · intro w hw
        rcases List.mem_cons.1 hw with h | h
        · rw [h]; exact ih3
        · exact ih2 w h
      · exact (List.prefix_append acc [a]).trans ih3
      · refine List.chain'_cons'.mpr ⟨?_, ih4⟩
        intro w hw
        exact ih1 w (List.mem_of_mem_head? hw)

lemma runMain_writes (events : List DayOutcome) (e : RunEnd) :
    (runMain events e).1
      = (schedLoop events []).2
        ++ [save_articles (schedLoop events []).1 defaultPath] := rfl

/-- C5: across a run, the sequence of checkpoint snapshots written (the
per-success progress writes followed by the final write) is monotonically
non-shrinking: each snapshot's contents extend the previous snapshot's, so
no previously checkpointed result is ever removed and article counts never
decrease. -/
theorem checkpoint_snapshots_monotone (events : List DayOutcome) (e : RunEnd) :
    List.Chain' (fun w w' => w.contents <+: w'.contents) (runMain events e).1 ∧
    List.Chain' (fun w w' => w.contents.length ≤ w'.contents.length) (runMain events e).1 := by
  obtain ⟨h1, h2, h3, h4⟩ := schedLoop_writes_chain events []
  have hchain : List.Chain' (fun w w' => w.contents <+: w'.contents) (runMain events e).1 := by
    rw [runMain_writes]
    refine h4.append (List.chain'_singleton _) ?_
    intro x hx y hy
    have hx' : x ∈ (schedLoop events []).2 := List.mem_of_mem_getLast? hx
    have hy' : save_articles (schedLoop events []).1 defaultPath = y := by
      simpa using hy
    rw [← hy']
    exact h2 x hx'
  exact ⟨hchain, hchain.imp fun w w' h => h.length_le⟩

lemma inits_eq_cons_tail {α : Type} (l : List α) : l.inits = [] :: l.inits.tail := by
  cases l with
  | nil => rfl
  | cons b l' =>
    rw [List.inits_cons]
    rfl

lemma schedLoop_contents (events : List DayOutcome) :
    ∀ acc : List Article,
      (schedLoop events acc).1 = acc ++ foundList events ∧
      (schedLoop events acc).2.map FileWrite.contents
        = ((foundList events).inits.tail).map (acc ++ ·) := by
  induction events with
  | nil =>
    intro acc
    exact ⟨by simp [schedLoop, foundList], by simp [schedLoop, foundList]⟩
  | cons o rest ih =>
    intro acc
    cases o with
    | nothing =>
      obtain ⟨ih1, ih2⟩ := ih acc
      exact ⟨ih1, ih2⟩
    | failed =>
      obtain ⟨ih1, ih2⟩ := ih acc
      exact ⟨ih1, ih2⟩
    | found a =>
      obtain ⟨ih1, ih2⟩ := ih (acc ++ [a])
      have hfl : foundList (DayOutcome.found a :: rest) = a :: foundList rest := rfl
      constructor
      · show (schedLoop rest (acc ++ [a])).1 = acc ++ foundList (DayOutcome.found a :: rest)
        rw [ih1, hfl]
        simp
      · show ((save_articles (acc ++ [a]) progressPath
              :: (schedLoop rest (acc ++ [a])).2).map FileWrite.contents)
          = ((foundList (DayOutcome.found a :: rest)).inits.tail).map (acc ++ ·)
        rw [hfl, List.inits_cons, List.map_cons, ih2]
        show (acc ++ [a]) :: ((foundList rest).inits.tail).map (fun x => (acc ++ [a]) ++ x)
          = ((foundList rest).inits.map fun t => a :: t).map (fun x => acc ++ x)
        rw [List.map_map]
        conv_rhs => rw [inits_eq_cons_tail (foundList rest)]
        rw [List.map_cons]
        refine congrArg₂ _ (by simp) (List.map_congr_left ?_)
        intro t _
        simp

/-- C6 (amended): every checkpoint flush serializes the entire current result
set, not a delta — the k-th progress write holds exactly the first k appended
articles — but the flush writes by opening the destination file itself for
truncating write: its operation trace opens and writes the target in place
and performs no rename, so there is no temporary-file atomic replace. -/
theorem checkpoint_full_set_direct_write (events : List DayOutcome) :
    ((schedLoop events []).2.map FileWrite.contents) = (foundList events).inits.tail ∧
    (∀ fn, FileOp.openTrunc fn ∈ save_articles_ops fn) ∧
    (∀ fn src dst, FileOp.rename src dst ∉ save_articles_ops fn) := by
  refine ⟨?_, ?_, ?_⟩
  · have h := (schedLoop_contents events []).2
    rw [h]
    simp
  · intro fn
    simp [save_articles_ops]
  · intro fn src dst
    simp [save_articles_ops]

/-- C6 counterexample: the flush to the default snapshot path opens and
writes the target file directly, violating the spec's
write-to-temporary-then-rename discipline. -/
theorem save_articles_not_atomic_cex :
    ¬ atomicReplaceSpec defaultPath (save_articles_ops defaultPath) := by
  intro h
  exact (h.1 (FileOp.openTrunc defaultPath) (by simp [save_articles_ops])).1 rfl

lemma runMain_last_write (events : List DayOutcome) (e : RunEnd) :
    (runMain events e).1.getLast?
      = some (save_articles (schedLoop events []).1 defaultPath) := by
  rw [runMain_writes]
  exact List.getLast?_concat _

/-- C8 (amended): however the run ends — completed, interrupted by
KeyboardInterrupt, or aborted by another exception — `main`'s `finally` block
performs one final flush of the entire current result set to the default
snapshot file; but because the `except KeyboardInterrupt` branch only prints
and `main` then returns normally, the process exit status is 0 in every case:
an interrupted run is not distinguished from a completed one by any exit
status. -/
theorem interrupt_final_flush_exit_zero (events : List DayOutcome) (e : RunEnd) :
    (runMain events e).1.getLast?
      = some (save_articles (schedLoop events []).1 defaultPath) ∧
    (runMain events e).2 = 0 ∧
    (runMain events e).2 = (runMain events RunEnd.completed).2 :=
  ⟨runMain_last_write events e, rfl, rfl⟩

/-- C8 counterexample: a concrete interrupted run exits with status 0 — the
same status as the completed run — contradicting the claimed non-zero status
that distinguishes interruption from completion. -/
theorem interrupt_exit_status_cex :
    (runMain [DayOutcome.found ⟨"a1"⟩] RunEnd.interrupted).2 = 0 ∧
    (runMain [DayOutcome.found ⟨"a1"⟩] RunEnd.completed).2 = 0 :=
  ⟨rfl, rfl⟩

lemma schedLoop_filenames (events : List DayOutcome) :
    ∀ acc, ∀ w ∈ (schedLoop events acc).2, w.filename = progressPath := by
  induction events with
  | nil =>
    intro acc w hw
    simp [schedLoop] at hw
  | cons o rest ih =>
    intro acc w hw
    cases o with
    | nothing => exact ih acc w hw
    | failed => exact ih acc w hw
    | found a =>
      have hw' : w ∈ save_articles (acc ++ [a]) progressPath
          :: (schedLoop rest (acc ++ [a])).2 := hw
      rcases List.mem_cons.1 hw' with h | h
      · rw [h]; rfl
      · exact ih (acc ++ [a]) w h

/-- C10: every per-success flush targets the partial-progress filename while
the single final flush targets the distinct default filename of
`save_articles`; the final flush therefore never overwrites the
partial-progress file, whose write stream is exactly the per-success
snapshots (ending in the state as of the last success). -/
theorem progress_and_final_files_distinct (events : List DayOutcome) (e : RunEnd) :
    (∀ w ∈ (schedLoop events []).2, w.filename = progressPath) ∧
    (runMain events e).1.getLast?
      = some (save_articles (schedLoop events []).1 defaultPath) ∧
    progressPath ≠ defaultPath ∧
    (runMain events e).1.filter (fun w => w.filename == progressPath)
      = (schedLoop events []).2 := by
  refine ⟨schedLoop_filenames events [], runMain_last_write events e, by decide, ?_⟩
  rw [runMain_writes, List.filter_append]
  have h1 : (schedLoop events []).2.filter (fun w => w.filename == progressPath)
      = (schedLoop events []).2 := by
    refine List.filter_eq_self.mpr ?_
    intro w hw
    simp [schedLoop_filenames events [] w hw]
  have h2 : ([save_articles (schedLoop events []).1 defaultPath]).filter
      (fun w => w.filename == progressPath) = [] := by
    simp [save_articles, progressPath, defaultPath]
  rw [h1, h2, List.append_nil]

end GDELT

namespace Crawler

lemma gcaLoop_cons_none (count : Nat) (a : RawArticle) (rest : List RawArticle)
    (acc : List Candidate) (ha : a.href = none) :
    gcaLoop count (a :: rest) acc
      = if count ≤ acc.length then acc else gcaLoop count rest acc := by
  simp only [gcaLoop, ha]

lemma gcaLoop_cons_some_mem (count : Nat) (a : RawArticle) (rest : List RawArticle)
    (acc : List Candidate) (h : String) (ha : a.href = some h)
    (hm : (⟨rewriteHref h, a.date⟩ : Candidate) ∈ acc) :
    gcaLoop count (a :: rest) acc
      = if count ≤ acc.length then acc else gcaLoop count rest acc := by
  simp only [gcaLoop, ha, if_pos hm]

lemma gcaLoop_cons_some_new (count : Nat) (a : RawArticle) (rest : List RawArticle)
    (acc : List Candidate) (h : String) (ha : a.href = some h)
    (hm : (⟨rewriteHref h, a.date⟩ : Candidate) ∉ acc) :
    gcaLoop count (a :: rest) acc
      = if count ≤ (acc ++ [(⟨rewriteHref h, a.date⟩ : Candidate)]).length
          then acc ++ [(⟨rewriteHref h, a.date⟩ : Candidate)]
          else gcaLoop count rest (acc ++ [(⟨rewriteHref h, a.date⟩ : Candidate)]) := by
  simp only [gcaLoop, ha, if_neg hm]

lemma gcaLoop_extends (count : Nat) :
    ∀ (articles : List RawArticle) (acc : List Candidate),
      ∃ t, gcaLoop count articles acc = acc ++ t ∧ List.Sublist t (anchored articles) := by
  intro articles
  induction articles with
  | nil =>
    intro acc
    exact ⟨[], by simp [gcaLoop], by simp [anchored]⟩
  | cons a rest ih =>
    intro acc
    cases ha : a.href with
    | none =>
      rw [gcaLoop_cons_none count a rest acc ha]
      have hanch : anchored (a :: rest) = anchored rest := by simp [anchored, ha]
      rw [hanch]
      by_cases hc : count ≤ acc.length
      · exact ⟨[], by rw [if_pos hc]; simp, List.nil_sublist _⟩
      · obtain ⟨t, h1, h2⟩ := ih acc
        exact ⟨t, by rw [if_neg hc]; exact h1, h2⟩
    | some h =>
      have hanch : anchored (a :: rest) = ⟨rewriteHref h, a.date⟩ :: anchored rest := by
        simp [anchored, ha]
      rw [hanch]
      by_cases hm : (⟨rewriteHref h, a.date⟩ : Candidate) ∈ acc
      · rw [gcaLoop_cons_some_mem count a rest acc h ha hm]
        by_cases hc : count ≤ acc.length
        · exact ⟨[], by rw [if_pos hc]; simp, List.nil_sublist _⟩
        · obtain ⟨t, h1, h2⟩ := ih acc
          exact ⟨t, by rw [if_neg hc]; exact h1, h2.cons _⟩
      · rw [gcaLoop_cons_some_new count a rest acc h ha hm]
        by_cases hc : count ≤ (acc ++ [(⟨rewriteHref h, a.date⟩ : Candidate)]).length
        · exact ⟨[(⟨rewriteHref h, a.date⟩ : Candidate)], by rw [if_pos hc],
            (List.nil_sublist _).cons₂ _⟩
        · obtain ⟨t, h1, h2⟩ := ih (acc ++ [(⟨rewriteHref h, a.date⟩ : Candidate)])
          refine ⟨(⟨rewriteHref h, a.date⟩ : Candidate) :: t, ?_, h2.cons₂ _⟩
          rw [if_neg hc, h1]
          simp

lemma gcaLoop_nodup (count : Nat) :
    ∀ (articles : List RawArticle) (acc : List Candidate),
      acc.Nodup → (gcaLoop count articles acc).Nodup := by
  intro articles
  induction articles with
  | nil => intro acc hacc; exact hacc
  | cons a rest ih =>
    intro acc hacc
    cases ha : a.href with
    | none =>
      rw [gcaLoop_cons_none count a rest acc ha]
      by_cases hc : count ≤ acc.length
      · rwa [if_pos hc]
      · rw [if_neg hc]; exact ih acc hacc
    | some h =>
      by_cases hm : (⟨rewriteHref h, a.date⟩ : Candidate) ∈ acc
      · rw [gcaLoop_cons_some_mem count a rest acc h ha hm]
        by_cases hc : count ≤ acc.length
        · rwa [if_pos hc]
        · rw [if_neg hc]; exact ih acc hacc
      · rw [gcaLoop_cons_some_new count a rest acc h ha hm]
        have hacc' : (acc ++ [(⟨rewriteHref h, a.date⟩ : Candidate)]).Nodup := by
          simp [List.nodup_append, hacc, hm]
        by_cases hc : count ≤ (acc ++ [(⟨rewriteHref h, a.date⟩ : Candidate)]).length
        · rwa [if_pos hc]
        · rw [if_neg hc]; exact ih _ hacc'

/-- C7 (amended): within a day, candidates are deduplicated by equality of
the whole `{url, candidate_date}` dict — not by URL alone — preserving
first-seen order: the list passed to scoring contains no two identical
candidate dicts and is an order-preserving sublist of the anchored articles'
candidates; but two candidates sharing a URL while differing in extracted
date both survive. -/
theorem get_candidate_articles_dedup (articles : List RawArticle) (count : Nat) :
    (get_candidate_articles articles count).Nodup ∧
    List.Sublist (get_candidate_articles articles count) (anchored articles) := by
  obtain ⟨t, h1, h2⟩ := gcaLoop_extends count articles []
  refine ⟨gcaLoop_nodup count articles [] List.nodup_nil, ?_⟩
  unfold get_candidate_articles
  rw [h1]
  simpa using h2

/-- C7 counterexample: two page articles share the URL "u" but carry
different extracted dates; both survive deduplication, so two candidates with
the same URL are passed on to scoring, refuting deduplication by URL
equality alone. -/
theorem get_candidate_articles_same_url_cex :
    get_candidate_articles [⟨some "u", some 1⟩, ⟨some "u", some 2⟩] 6
      = [⟨"u", some 1⟩, ⟨"u", some 2⟩] ∧
    (⟨"u", some 1⟩ : Candidate).url = (⟨"u", some 2⟩ : Candidate).url :=
  ⟨rfl, rfl⟩

end Crawler

namespace TextAnalyzer

/-- C9 (amended): the classification regions of `analyze_sentiment` — and
identically of the per-date aggregation in `aggregate_sentiments` — are:
Positive iff compound ≥ 0.01, Negative iff compound ≤ 0 (Python's `-0.00`
equals 0), and Neutral exactly on the half-open gap 0 < compound < 0.01; the
strictly-negative part of the claimed dead zone (−0.01, 0.01) is classified
Negative, not Neutral. -/
theorem classify_thresholds (c : ℚ) :
    (classify c = "Positive" ↔ 1/100 ≤ c) ∧
    (classify c = "Negative" ↔ c ≤ 0) ∧
    (classify c = "Neutral" ↔ 0 < c ∧ c < 1/100) ∧
    classify_avg c = classify c := by
  have h0 : (-0 : ℚ) = 0 := neg_zero
  unfold classify classify_avg
  rw [h0]
  by_cases h1 : (1 : ℚ)/100 ≤ c
  · rw [if_pos h1]
    refine ⟨by simpa using h1, ?_, ?_, rfl⟩
    · constructor
      · intro hx; exact absurd hx (by decide)
      · intro hx; linarith
    · constructor
      · intro hx; exact absurd hx (by decide)
      · intro hx; linarith [hx.2]
  · rw [if_neg h1]
    by_cases h2 : c ≤ 0
    · rw [if_pos h2]
      refine ⟨?_, by simp [h2], ?_, rfl⟩
      · constructor
        · intro hx; exact absurd hx (by decide)
        · intro hx; linarith
      · constructor
        · intro hx; exact absurd hx (by decide)
        · intro hx; linarith [hx.1]
    · rw [if_neg h2]
      refine ⟨?_, ?_, ?_, rfl⟩
      · constructor
        · intro hx; exact absurd hx (by decide)
        · intro hx; linarith
      · constructor
        · intro hx; exact absurd hx (by decide)
        · intro hx; linarith
      · exact ⟨fun _ => ⟨by linarith, by linarith⟩, fun _ => rfl⟩

/-- C9 counterexample: the compound score −1/200 = −0.005 lies strictly
inside the claimed dead zone (−0.01, 0.01), yet both threshold blocks
classify it as Negative, not Neutral. -/
theorem deadzone_negative_cex :
    (-(1 : ℚ)/100 < -1/200 ∧ (-1/200 : ℚ) < 1/100) ∧
    classify (-1/200) = "Negative" ∧
    classify_avg (-1/200) = "Negative" ∧
    ("Negative" : String) ≠ "Neutral" := by
  refine ⟨⟨by norm_num, by norm_num⟩, ?_, ?_, by decide⟩
  · unfold classify
    rw [if_neg (by norm_num), if_pos (by norm_num)]
  · unfold classify_avg
    rw [if_neg (by norm_num), if_pos (by norm_num)]

end TextAnalyzer
